import Mathlib

/-!
Verification of the EDA helper functions of the Moscow apartment analysis
repository (src/utils/cleaning.py, src/utils/eda.py, src/utils/hypothesis.py).

Shallow embedding conventions:
* a table is a list of rows; a row is an opaque value of a type variable,
  accessed through column functions `α → Option ℚ` (numeric columns, `none`
  standing for a missing value / NaN) and `α → Option G` (categorical columns);
* pandas skips missing values in `quantile` and `mean`; comparisons against
  NaN are false, so rows with a missing value in the tested column are dropped
  by the filtering steps;
* the external statistics primitives (scipy) are embedded only as far as the
  repository code depends on their interface: the Shapiro-Wilk p-value is an
  abstract parameter together with its documented "at least 3 observations"
  requirement, while the Pearson / Spearman coefficient formulas are embedded
  exactly since properties of their values are claimed.
-/

/-- Arithmetic mean of a list of rational values, as pandas computes it on a
column without missing entries: sum divided by count (0 for the empty list,
where pandas would produce NaN; the embedding only uses the mean of nonempty
lists except where noted). -/
def mean (vs : List ℚ) : ℚ := vs.sum / vs.length

/-- Non-missing entries of a column, in order: embeds `Series.dropna()`
composed with reading the values. -/
def presentVals (xs : List (Option ℚ)) : List ℚ := xs.filterMap id

/-- Linear-interpolation quantile of the non-missing entries of a column,
embedding pandas `Series.quantile(q)` (default interpolation "linear",
missing values skipped): on the sorted values `s` of length `n` it returns
`s[i] + frac * (s[i+1] - s[i])` where `i = floor((n-1)*q)` and
`frac = (n-1)*q - i`; `none` when there is no non-missing value (pandas
returns NaN there). -/
def quantile (xs : List (Option ℚ)) (q : ℚ) : Option ℚ :=
  let s := (presentVals xs).insertionSort (· ≤ ·)
  match s with
  | [] => none
  | _ :: _ =>
    let h : ℚ := ((s.length - 1 : ℕ) : ℚ) * q
    let i : ℕ := (⌊h⌋).toNat
    let frac : ℚ := h - (i : ℚ)
    some (s.getD i 0 + frac * (s.getD (i + 1) 0 - s.getD i 0))

/-- IQR bounds of a column as computed by `drop_outliers`: `Q1 = quantile 0.25`,
`Q3 = quantile 0.75`, `IQR = Q3 - Q1`, bounds `(Q1 - k*IQR, Q3 + k*IQR)`;
`none` when the column has no non-missing value (the bounds are then NaN and
every comparison against them is false). -/
def iqrBounds (xs : List (Option ℚ)) (k : ℚ) : Option (ℚ × ℚ) :=
  match quantile xs (1/4), quantile xs (3/4) with
  | some q1, some q3 => some (q1 - k * (q3 - q1), q3 + k * (q3 - q1))
  | _, _ => none

/-- Truth value of `lower <= value and value <= upper` under pandas semantics:
false whenever the value or the bounds are missing (NaN comparisons are
false). -/
def withinBounds (b : Option (ℚ × ℚ)) (v : Option ℚ) : Bool :=
  match b, v with
  | some (lo, hi), some x => decide (lo ≤ x) && decide (x ≤ hi)
  | _, _ => false

/-- Rows surviving the ungrouped IQR filter of `drop_outliers`: the embedding
of `data.query("col >= @lower_bound and col <= @upper_bound")` with the
bounds computed from the original column. -/
def dropOutliersResult {α : Type*} (data : List α) (col : α → Option ℚ) (k : ℚ) :
    List α :=
  let b := iqrBounds (data.map col) k
  data.filter (fun r => withinBounds b (col r))

/-- Embedding of `drop_outliers(data, column, k, inplace)`; the first component
is the contents of the caller-supplied table after the call, the second the
returned value (`None` in mutate mode). -/
def drop_outliers {α : Type*} (data : List α) (col : α → Option ℚ) (k : ℚ)
    (inplace : Bool) : List α × Option (List α) :=
  if inplace then (dropOutliersResult data col k, none)
  else (data, some (dropOutliersResult data col k))

/-- Sorted list of the distinct non-missing keys of a grouping column: embeds
the iteration order of `data.groupby(group_col)` (keys sorted ascending, rows
with a missing key dropped). -/
def groupKeys {α G : Type*} [LinearOrder G] (data : List α)
    (group_col : α → Option G) : List G :=
  ((data.filterMap group_col).dedup).insertionSort (· ≤ ·)

/-- Rows of one group, in original order: embeds the subframe `group` produced
by `data.groupby(group_col)` for key `g`. -/
def groupRows {α G : Type*} [DecidableEq G] (data : List α)
    (group_col : α → Option G) (g : G) : List α :=
  data.filter (fun r => group_col r = some g)

/-- Rows surviving the per-group IQR filter of `drop_outliers_grouped`:
for each group (in sorted key order) the bounds are computed from the
group's own column values and the group's surviving rows are kept; the
per-group survivor lists are concatenated (`pd.concat(cleaned)`). -/
def dropOutliersGroupedResult {α G : Type*} [LinearOrder G] (data : List α)
    (col : α → Option ℚ) (group_col : α → Option G) (k : ℚ) : List α :=
  ((groupKeys data group_col).map (fun g =>
    let grp := groupRows data group_col g
    let b := iqrBounds (grp.map col) k
    grp.filter (fun r => withinBounds b (col r)))).flatten

/-- Embedding of `data.loc[:] = result` for a table with the default range
index: the assignment aligns `result` (whose index was reset to `0..m-1`) on
the row labels `0..n-1` of `data`, so `data` keeps its original row count,
position `i` receives row `i` of `result` when `i < m`, and the remaining
positions are overwritten with an all-missing row `blank`. -/
def locAssignAll {α : Type*} (data result : List α) (blank : α) : List α :=
  (List.range data.length).map (fun i => result.getD i blank)

/-- Embedding of `drop_outliers_grouped(data, column, group_col, k, inplace)`;
the first component is the contents of the caller-supplied table after the
call (affected by `data.loc[:] = result` in mutate mode), the second the
returned value. `blank` is the all-missing row that `.loc` alignment writes
into unmatched positions. -/
def drop_outliers_grouped {α G : Type*} [LinearOrder G] (data : List α)
    (col : α → Option ℚ) (group_col : α → Option G) (k : ℚ) (inplace : Bool)
    (blank : α) : List α × Option (List α) :=
  let result := dropOutliersGroupedResult data col group_col k
  if inplace then (locAssignAll data result blank, none) else (data, some result)

/-- Aligned (group, value) pairs that survive `DataFrame.dropna()` in
`get_eta_correlation`: a pair is kept exactly when both entries are
non-missing. -/
def cleanPairs {G : Type*} (l : List (Option G × Option ℚ)) : List (G × ℚ) :=
  l.filterMap (fun p => p.1.bind (fun g => p.2.map (fun v => (g, v))))

/-- Values of one group of the cleaned data of `get_eta_correlation`
(`data.groupby("groups")["values"]` for key `g`). -/
def etaVals {G : Type*} [DecidableEq G] (d : List (G × ℚ)) (g : G) : List ℚ :=
  (d.filter (fun p => p.1 = g)).map Prod.snd

/-- Distinct group keys of the cleaned data, in the sorted order used by
`groupby`. -/
def etaKeys {G : Type*} [LinearOrder G] (d : List (G × ℚ)) : List G :=
  ((d.map Prod.fst).dedup).insertionSort (· ≤ ·)

/-- Between-group sum of squares accumulated by the loop of
`get_eta_correlation`: for each group, `len(vals) * (vals.mean() - y_mean)**2`
where `y_mean` is the global mean of the cleaned values. -/
def ssBetween {G : Type*} [LinearOrder G] (d : List (G × ℚ)) : ℚ :=
  ((etaKeys d).map (fun g =>
    ((etaVals d g).length : ℚ) * (mean (etaVals d g) - mean (d.map Prod.snd)) ^ 2)).sum

/-- Within-group sum of squares accumulated by the loop of
`get_eta_correlation`: for each group, `((vals - vals.mean()) ** 2).sum()`. -/
def ssWithin {G : Type*} [LinearOrder G] (d : List (G × ℚ)) : ℚ :=
  ((etaKeys d).map (fun g =>
    ((etaVals d g).map (fun v => (v - mean (etaVals d g)) ^ 2)).sum)).sum

/-- Embedding of `get_eta_correlation(groups, values)`:
`np.sqrt(ss_between / (ss_between + ss_within))` when the denominator is
positive, else `0`. -/
noncomputable def get_eta_correlation {G : Type*} [LinearOrder G]
    (groups : List (Option G)) (values : List (Option ℚ)) : ℝ :=
  let d := cleanPairs (groups.zip values)
  if 0 < ssBetween d + ssWithin d then
    Real.sqrt ((ssBetween d / (ssBetween d + ssWithin d) : ℚ) : ℝ)
  else 0

/-- Embedding of Python `round(x, 4)` on a rational value: round to 4 decimal
places (Python rounds ties to even; the embedding rounds ties up, which agrees
with it everywhere except on exact ties at the fifth decimal). -/
def round4 (x : ℚ) : ℚ := ((round (x * 10000) : ℤ) : ℚ) / 10000

/-- Result of a call `scipy.stats.shapiro(xs)`, with the p-value left abstract
(parameter `S`) and the documented requirement of at least 3 observations
embedded: scipy raises `ValueError` on shorter input. -/
def shapiroResult (S : List (Option ℚ) → ℚ) (xs : List (Option ℚ)) :
    Except Unit ℚ :=
  if xs.length < 3 then .error () else .ok (S xs)

/-- Entries of a column surviving `Series.dropna()` (still a column: a list of
necessarily-present optional values). -/
def dropna (xs : List (Option ℚ)) : List (Option ℚ) := xs.filter (·.isSome)

/-- One output row of `check_normality`. -/
structure NormRow where
  column : String
  p_value : ℚ
  distribution : String
deriving DecidableEq

/-- Embedding of the loop of `check_normality(df, columns, alpha)`: for each
column in order, `shapiro(df[col].dropna())` gives a p-value (error for fewer
than 3 non-missing observations, propagated immediately and aborting the
whole call), and the row records the column name, the p-value rounded to 4
decimals and the classification label. -/
def checkNormalityRows (S : List (Option ℚ) → ℚ) (df : String → List (Option ℚ))
    (alpha : ℚ) : List String → Except Unit (List NormRow)
  | [] => .ok []
  | c :: cs =>
    match shapiroResult S (dropna (df c)) with
    | .error e => .error e
    | .ok p =>
      match checkNormalityRows S df alpha cs with
      | .error e => .error e
      | .ok rest =>
        .ok ({ column := c, p_value := round4 p,
               distribution := if alpha ≤ p then "Нормальное" else "Асимметричное" } :: rest)

/-- Embedding of `check_normality` with an explicit list of examined columns
(the `columns=None` default merely selects the numeric columns of the frame). -/
def check_normality (S : List (Option ℚ) → ℚ) (df : String → List (Option ℚ))
    (columns : List String) (alpha : ℚ := 1/20) : Except Unit (List NormRow) :=
  checkNormalityRows S df alpha columns

/-- Embedding of `_is_normal(column, alpha)`: `shapiro` on the raw column
(missing values included, and counted by the length check), then `p >= alpha`. -/
def isNormal (S : List (Option ℚ) → ℚ) (column : List (Option ℚ))
    (alpha : ℚ := 1/20) : Except Unit Bool :=
  (shapiroResult S column).map (fun p => decide (alpha ≤ p))

/-- The two raw columns paired element-wise, as `pearsonr` and `spearmanr`
receive them: `some` of the paired values when every entry of both columns is
present, and `none` when any entry is missing — a NaN in the input poisons the
whole computation (scipy propagates it into a NaN result). -/
def pairedColumns : List (Option ℚ) → List (Option ℚ) → Option (List (ℚ × ℚ))
  | some a :: xs, some b :: ys => (pairedColumns xs ys).map (fun rest => (a, b) :: rest)
  | none :: _, _ :: _ => none
  | _ :: _, none :: _ => none
  | _, _ => some []

/-- Sample correlation coefficient of a list of real pairs, the value
produced by `scipy.stats.pearsonr`:
`sum((x-xm)*(y-ym)) / sqrt(sum((x-xm)^2) * sum((y-ym)^2))` when the squared
denominator is nonzero, and `none` — standing for the NaN that scipy emits
with a ConstantInputWarning — when it vanishes (a constant input; scipy
raises for input shorter than 2, which also falls under the vanishing
denominator here). -/
noncomputable def corrCoeff (ps : List (ℝ × ℝ)) : Option ℝ :=
  let xm := (ps.map Prod.fst).sum / ps.length
  let ym := (ps.map Prod.snd).sum / ps.length
  if ((ps.map (fun p => (p.1 - xm) ^ 2)).sum) *
      ((ps.map (fun p => (p.2 - ym) ^ 2)).sum) = 0 then none
  else
    some (((ps.map (fun p => (p.1 - xm) * (p.2 - ym))).sum) /
      Real.sqrt (((ps.map (fun p => (p.1 - xm) ^ 2)).sum) *
        ((ps.map (fun p => (p.2 - ym) ^ 2)).sum)))

/-- Pearson coefficient of two raw columns (cast to the reals): NaN (`none`)
as soon as an entry is missing, else the coefficient formula. -/
noncomputable def pearsonR (xs ys : List (Option ℚ)) : Option ℝ :=
  match pairedColumns xs ys with
  | none => none
  | some ps => corrCoeff (ps.map (fun p => ((p.1 : ℝ), (p.2 : ℝ))))

/-- Average ranks of a list (ties receive the mean of their positions), as
`scipy.stats.rankdata` computes them for `spearmanr`. -/
noncomputable def rankAvg (l : List ℚ) : List ℝ :=
  l.map (fun x => ((l.countP (fun y => decide (y < x)) : ℕ) : ℝ) +
    (((l.countP (fun y => decide (y = x)) : ℕ) : ℝ) + 1) / 2)

/-- Spearman coefficient of two raw columns: NaN (`none`) as soon as an entry
is missing, else the correlation coefficient of the average ranks. -/
noncomputable def spearmanR (xs ys : List (Option ℚ)) : Option ℝ :=
  match pairedColumns xs ys with
  | none => none
  | some ps => corrCoeff ((rankAvg (ps.map Prod.fst)).zip (rankAvg (ps.map Prod.snd)))

/-- Rounding to 4 decimals on the reals, for the correlation column of the
output of `get_quant_p_values`. -/
noncomputable def round4R (x : ℝ) : ℝ := ((round (x * 10000) : ℤ) : ℝ) / 10000

/-- One output row of `get_quant_p_values`; a `none` correlation is the NaN
that `round(nan, 4)` passes through unchanged. -/
structure QuantRow where
  column : String
  p_value : ℚ
  correlation : Option ℝ
  method : String
  conclusion : String

/-- Embedding of one iteration of the loop of `get_quant_p_values`: decide the
method by `_is_normal(df[factor]) and _is_normal(df[target])` (with Python
short-circuit evaluation, so the target column is only tested when the factor
passed), compute the corresponding coefficient on the raw columns and the
p-value (the p-values of `pearsonr` and `spearmanr` stay abstract: parameters
`pP` and `sP` of the two raw columns), and build the row; rounding maps NaN
to NaN. -/
noncomputable def quantRow (S : List (Option ℚ) → ℚ)
    (pP sP : List (Option ℚ) → List (Option ℚ) → ℚ)
    (df : String → List (Option ℚ)) (target f : String) : Except Unit QuantRow :=
  match isNormal S (df f) with
  | .error e => .error e
  | .ok fn =>
    match (if fn then isNormal S (df target) else .ok false) with
    | .error e => .error e
    | .ok both =>
      let r : Option ℝ :=
        if both then pearsonR (df f) (df target) else spearmanR (df f) (df target)
      let p : ℚ := if both then pP (df f) (df target) else sP (df f) (df target)
      let method : String := if both then "Pearson" else "Spearman"
      let conclusion : String :=
        if p ≤ 1/20 then "Есть статистически значимая разница."
        else "Нет статистически значимой разницы."
      .ok { column := f, p_value := round4 p, correlation := r.map round4R,
            method := method, conclusion := conclusion }

/-- Embedding of the loop of `get_quant_p_values(df, target, factors)`: one
row per factor in input order, any Shapiro-Wilk failure aborting the whole
call. -/
noncomputable def quantRows (S : List (Option ℚ) → ℚ)
    (pP sP : List (Option ℚ) → List (Option ℚ) → ℚ)
    (df : String → List (Option ℚ)) (target : String) :
    List String → Except Unit (List QuantRow)
  | [] => .ok []
  | f :: fs =>
    match quantRow S pP sP df target f with
    | .error e => .error e
    | .ok row =>
      match quantRows S pP sP df target fs with
      | .error e => .error e
      | .ok rest => .ok (row :: rest)

/-- Embedding of `get_quant_p_values` with an explicit factor list. -/
noncomputable def get_quant_p_values (S : List (Option ℚ) → ℚ)
    (pP sP : List (Option ℚ) → List (Option ℚ) → ℚ)
    (df : String → List (Option ℚ)) (target : String)
    (factors : List String) : Except Unit (List QuantRow) :=
  quantRows S pP sP df target factors

/-- Outcome of the Python call `mannwhitneyu(*groups, alternative=alternative)`
at the argument-binding boundary: either binding fails with a TypeError (too
few positional arguments for the required parameters `x` and `y`, or a
positional argument colliding with the keyword argument `alternative`), or
the underlying routine is entered with `x`, `y` and possibly a third group
bound to its `use_continuity` parameter. -/
inductive MWCall (τ : Type*) where
  | argCountMismatch : MWCall τ
  | call (x y : τ) (use_continuity : Option τ) : MWCall τ
deriving DecidableEq

/-- Python argument binding of `mannwhitneyu(*args, alternative=...)` against
the scipy signature `mannwhitneyu(x, y, use_continuity=True, alternative=...,
...)`: fewer than two positional arguments leave a required parameter unbound
(TypeError), two bind `x` and `y`, three additionally bind `use_continuity`
to the third group (the binding succeeds, no argument-count error), and four
or more collide with the keyword argument `alternative` (TypeError). -/
def mannwhitneyuBind {τ : Type*} (args : List τ) : MWCall τ :=
  match args with
  | [x, y] => .call x y none
  | [x, y, uc] => .call x y (some uc)
  | _ => .argCountMismatch

/-- Per-group lists of target values produced by
`df.groupby(factor)[target].apply(list)`: one list per distinct non-missing
factor key in sorted key order, keeping missing target values inside the
lists. -/
def groupedLists {α G : Type*} [LinearOrder G] (data : List α)
    (factor : α → Option G) (target : α → Option ℚ) : List (List (Option ℚ)) :=
  (groupKeys data factor).map (fun g => (groupRows data factor g).map target)

/-- Embedding of `test_mannwhitney(df, target, factor, alternative)` up to the
binding of the `mannwhitneyu` call: the subsequent test statistic, message
formatting and printing do not affect whether an argument-count mismatch
occurs. -/
def test_mannwhitney {α G : Type*} [LinearOrder G] (data : List α)
    (target : α → Option ℚ) (factor : α → Option G) : MWCall (List (Option ℚ)) :=
  mannwhitneyuBind (groupedLists data factor target)

/-- C1: ungrouped outlier filtering never increases the row count, and every
retained row has a target value within the IQR bounds computed from the
original column (in both the mutate and the return mode). -/
theorem dropOutliers_sound {α : Type*} (data : List α) (col : α → Option ℚ) (k : ℚ) :
    (dropOutliersResult data col k).length ≤ data.length ∧
    (drop_outliers data col k true).1 = dropOutliersResult data col k ∧
    (drop_outliers data col k false).2 = some (dropOutliersResult data col k) ∧
    ∀ r ∈ dropOutliersResult data col k, ∃ lo hi v,
      iqrBounds (data.map col) k = some (lo, hi) ∧ col r = some v ∧ lo ≤ v ∧ v ≤ hi := by
  refine ⟨List.length_filter_le _ _, rfl, rfl, ?_⟩
  intro r hr
  rw [dropOutliersResult, List.mem_filter] at hr
  obtain ⟨-, hw⟩ := hr
  cases hb : iqrBounds (data.map col) k with
  | none => rw [hb] at hw; simp [withinBounds] at hw
  | some b =>
    obtain ⟨lo, hi⟩ := b
    cases hv : col r with
    | none => rw [hb, hv] at hw; simp [withinBounds] at hw
    | some v =>
      rw [hb, hv] at hw
      simp only [withinBounds, Bool.and_eq_true, decide_eq_true_eq] at hw
      exact ⟨lo, hi, v, rfl, rfl, hw.1, hw.2⟩

/-- Witness for C1 on the table with score column [10, 12, 11, 13, 9, 100]:
the row with value 10 survives and its value lies within the bounds computed
from the original column. -/
theorem dropOutliers_sound_witness :
    (10 : ℚ) ∈ dropOutliersResult [(10 : ℚ), 12, 11, 13, 9, 100] some (3/2) ∧
    ∃ lo hi v, iqrBounds (([(10 : ℚ), 12, 11, 13, 9, 100]).map some) (3/2) = some (lo, hi) ∧
      (some 10 : Option ℚ) = some v ∧ lo ≤ v ∧ v ≤ hi := by
  have hmem : (10 : ℚ) ∈ dropOutliersResult [(10 : ℚ), 12, 11, 13, 9, 100] some (3/2) := by
    norm_num [dropOutliersResult, iqrBounds, quantile, presentVals, withinBounds,
      List.insertionSort, List.orderedInsert, List.getD]
    simp
    norm_num
  exact ⟨hmem, (dropOutliers_sound [(10 : ℚ), 12, 11, 13, 9, 100] some (3/2)).2.2.2 10 hmem⟩

/-- Concrete five-row, single-group table on which the grouped IQR filter
drops the last row: rows are pairs of an optional group key and an optional
numeric value. -/
def bugTable : List (Option ℕ × Option ℚ) :=
  [(some 0, some 10), (some 0, some 10), (some 0, some 10), (some 0, some 10),
   (some 0, some 100)]

/-- C2 (divergence of the code from the claim at a concrete input): on a
five-row single-group table whose grouped filter drops one row, the mutate
mode of drop_outliers_grouped leaves the caller table with its original five
rows, the last one overwritten with the all-missing row, instead of replacing
the contents with the four filtered rows. -/
theorem dropOutliersGrouped_inplace_divergence :
    (drop_outliers_grouped bugTable Prod.snd Prod.fst (3/2) true (none, none)).1 =
      [(some 0, some 10), (some 0, some 10), (some 0, some 10), (some 0, some 10),
       (none, none)] ∧
    dropOutliersGroupedResult bugTable Prod.snd Prod.fst (3/2) =
      [(some 0, some 10), (some 0, some 10), (some 0, some 10), (some 0, some 10)] ∧
    (drop_outliers_grouped bugTable Prod.snd Prod.fst (3/2) true (none, none)).1 ≠
      dropOutliersGroupedResult bugTable Prod.snd Prod.fst (3/2) := by
  have hkeys : groupKeys bugTable Prod.fst = [0] := by
    norm_num [groupKeys, bugTable, List.dedup, List.insertionSort, List.orderedInsert]
  have hrows : groupRows bugTable Prod.fst 0 = bugTable := by
    norm_num [groupRows, bugTable]
  have hb : iqrBounds (bugTable.map Prod.snd) (3/2) = some (10, 10) := by
    norm_num [bugTable, iqrBounds, quantile, presentVals, List.insertionSort,
      List.orderedInsert, List.getD]
    simp
  have hresult : dropOutliersGroupedResult bugTable Prod.snd Prod.fst (3/2) =
      [(some 0, some 10), (some 0, some 10), (some 0, some 10), (some 0, some 10)] := by
    rw [dropOutliersGroupedResult, hkeys]
    simp only [List.map_cons, List.map_nil, List.flatten]
    rw [hrows]
    simp only [hb]
    norm_num [bugTable, withinBounds]
  refine ⟨?_, hresult, ?_⟩
  · rw [drop_outliers_grouped]
    simp only [if_pos]
    rw [hresult]
    norm_num [locAssignAll, bugTable, List.range_succ, List.getD]
  · rw [drop_outliers_grouped]
    simp only [if_pos]
    rw [hresult]
    norm_num [locAssignAll, bugTable, List.range_succ, List.getD]
/-- Deduplication of a constant nonempty list keeps exactly one key. -/
lemma dedup_replicate_eq {G : Type*} [DecidableEq G] (g : G) :
    ∀ n : ℕ, n ≠ 0 → (List.replicate n g).dedup = [g]
  | 0, h => absurd rfl h
  | 1, _ => by simp
  | n + 2, _ => by
    rw [List.replicate_succ, List.dedup_cons_of_mem (by simp [List.mem_replicate]),
      dedup_replicate_eq g (n + 1) n.succ_ne_zero]

/-- C3: on a table whose grouping column holds one single value in every row,
grouped outlier removal coincides with ungrouped outlier removal, both as the
concatenated filtered rows and as the value returned in non-mutating mode. -/
theorem groupedSingleValued_eq_ungrouped {α G : Type*} [LinearOrder G]
    (data : List α) (col : α → Option ℚ) (group_col : α → Option G) (k : ℚ)
    (blank : α) (g0 : G) (hne : data ≠ []) (hg : ∀ r ∈ data, group_col r = some g0) :
    dropOutliersGroupedResult data col group_col k = dropOutliersResult data col k ∧
    (drop_outliers_grouped data col group_col k false blank).2 =
      (drop_outliers data col k false).2 := by
  have hkeys : groupKeys data group_col = [g0] := by
    rw [groupKeys]
    have h1 : data.filterMap group_col = data.map (fun _ => g0) :=
      List.filterMap_eq_map_iff_forall_eq_some.mpr hg
    rw [h1, List.map_const', dedup_replicate_eq g0 data.length
      (fun h => hne (List.length_eq_zero.mp h))]
    simp [List.insertionSort, List.orderedInsert]
  have hrows : groupRows data group_col g0 = data :=
    List.filter_eq_self.mpr (fun r hr => by simp [hg r hr])
  have hmain : dropOutliersGroupedResult data col group_col k =
      dropOutliersResult data col k := by
    rw [dropOutliersGroupedResult, hkeys]
    simp only [List.map_cons, List.map_nil, List.flatten_cons, List.flatten_nil,
      List.append_nil]
    rw [hrows]
    rfl
  exact ⟨hmain, by rw [drop_outliers_grouped, drop_outliers]; simp [hmain]⟩

/-- Witness for C3: a three-row table whose grouping column constantly holds
the key 0 gives equal grouped and ungrouped filter results. -/
theorem groupedSingleValued_eq_ungrouped_witness :
    ([((some 0 : Option ℕ), (some 1 : Option ℚ)), (some 0, some 2), (some 0, some 3)] ≠
        ([] : List (Option ℕ × Option ℚ))) ∧
    (∀ r ∈ [((some 0 : Option ℕ), (some 1 : Option ℚ)), (some 0, some 2), (some 0, some 3)],
        Prod.fst r = some 0) ∧
    dropOutliersGroupedResult
        [((some 0 : Option ℕ), (some 1 : Option ℚ)), (some 0, some 2), (some 0, some 3)]
        Prod.snd Prod.fst (3/2) =
      dropOutliersResult
        [((some 0 : Option ℕ), (some 1 : Option ℚ)), (some 0, some 2), (some 0, some 3)]
        Prod.snd (3/2) := by
  refine ⟨by simp, ?_, ?_⟩
  · intro r hr
    simp only [List.mem_cons, List.not_mem_nil, or_false] at hr
    rcases hr with h | h | h <;> subst h <;> rfl
  · exact (groupedSingleValued_eq_ungrouped _ Prod.snd Prod.fst (3/2) (none, none) 0
      (by simp)
      (fun r hr => by
        simp only [List.mem_cons, List.not_mem_nil, or_false] at hr
        rcases hr with h | h | h <;> subst h <;> rfl)).1

/-- C10: rows with a missing grouping key never appear among the rows kept by
grouped outlier filtering: every row of the concatenated per-group result has
a present key; in non-mutating mode the returned table therefore has no
missing-key row, and in mutate mode every row of the final table is either a
kept row (with a present key) or the all-missing padding row. -/
theorem groupedMissingKey_dropped {α G : Type*} [LinearOrder G] (data : List α)
    (col : α → Option ℚ) (group_col : α → Option G) (k : ℚ) (blank : α) :
    (∀ r ∈ dropOutliersGroupedResult data col group_col k, ∃ g, group_col r = some g) ∧
    (∀ r ∈ (drop_outliers_grouped data col group_col k false blank).2.getD [],
        ∃ g, group_col r = some g) ∧
    (∀ r ∈ (drop_outliers_grouped data col group_col k true blank).1,
        r = blank ∨ ∃ g, group_col r = some g) := by
  have hres : ∀ r ∈ dropOutliersGroupedResult data col group_col k,
      ∃ g, group_col r = some g := by
    intro r hr
    rw [dropOutliersGroupedResult, List.mem_flatten] at hr
    obtain ⟨l, hl, hrl⟩ := hr
    rw [List.mem_map] at hl
    obtain ⟨g, -, rfl⟩ := hl
    rw [List.mem_filter] at hrl
    have hg := hrl.1
    rw [groupRows, List.mem_filter] at hg
    exact ⟨g, by simpa using hg.2⟩
  refine ⟨hres, fun r hr => hres r (by simpa [drop_outliers_grouped] using hr), ?_⟩
  intro r hr
  simp only [drop_outliers_grouped, if_pos, locAssignAll, List.mem_map,
    List.mem_range] at hr
  obtain ⟨i, -, rfl⟩ := hr
  rcases hgd : (dropOutliersGroupedResult data col group_col k)[i]? with - | x
  · left
    rw [List.getD_eq_getElem?_getD, hgd]
    rfl
  · right
    rw [List.getD_eq_getElem?_getD, hgd]
    exact hres x (List.getElem?_mem hgd)

/-- Witness for C10: in a table with one missing-key row and one keyed row,
the keyed row survives grouped filtering and indeed has a present key. -/
theorem groupedMissingKey_dropped_witness :
    ((some 0 : Option ℕ), (some 1 : Option ℚ)) ∈
      dropOutliersGroupedResult
        [((none : Option ℕ), (some 5 : Option ℚ)), (some 0, some 1)]
        Prod.snd Prod.fst (3/2) ∧
    ∃ g, (((some 0 : Option ℕ), (some 1 : Option ℚ)).1 : Option ℕ) = some g := by
  have hkeys : groupKeys
      [((none : Option ℕ), (some 5 : Option ℚ)), (some 0, some 1)] Prod.fst = [0] := by
    norm_num [groupKeys, List.dedup, List.insertionSort, List.orderedInsert]
  have hrows : groupRows
      [((none : Option ℕ), (some 5 : Option ℚ)), (some 0, some 1)] Prod.fst 0 =
      [(some 0, some 1)] := by
    simp [groupRows, List.filter_cons]
  have hmem : ((some 0 : Option ℕ), (some 1 : Option ℚ)) ∈
      dropOutliersGroupedResult
        [((none : Option ℕ), (some 5 : Option ℚ)), (some 0, some 1)]
        Prod.snd Prod.fst (3/2) := by
    rw [dropOutliersGroupedResult, hkeys]
    simp only [List.map_cons, List.map_nil, List.flatten_cons, List.flatten_nil,
      List.append_nil]
    rw [hrows]
    norm_num [iqrBounds, quantile, presentVals, withinBounds, List.insertionSort,
      List.orderedInsert, List.getD]
  exact ⟨hmem,
    (groupedMissingKey_dropped
      [((none : Option ℕ), (some 5 : Option ℚ)), (some 0, some 1)]
      Prod.snd Prod.fst (3/2) (none, none)).1 _ hmem⟩
/-- C5 (counterexample): a table whose factor column has exactly three
distinct groups does not make the mannwhitneyu call fail with an
argument-count mismatch: the binding succeeds, the third group being bound to
the use_continuity parameter. -/
theorem mannwhitney_three_groups_binds :
    (groupKeys [((some 0 : Option ℕ), (some 1 : Option ℚ)), (some 1, some 2),
        (some 2, some 3)] Prod.fst).length = 3 ∧
    test_mannwhitney [((some 0 : Option ℕ), (some 1 : Option ℚ)), (some 1, some 2),
        (some 2, some 3)] Prod.snd Prod.fst =
      MWCall.call [some 1] [some 2] (some [some 3]) ∧
    test_mannwhitney [((some 0 : Option ℕ), (some 1 : Option ℚ)), (some 1, some 2),
        (some 2, some 3)] Prod.snd Prod.fst ≠ MWCall.argCountMismatch := by
  have e : test_mannwhitney [((some 0 : Option ℕ), (some 1 : Option ℚ)), (some 1, some 2),
      (some 2, some 3)] Prod.snd Prod.fst =
      MWCall.call [some 1] [some 2] (some [some 3]) := rfl
  refine ⟨rfl, e, fun h => ?_⟩
  rw [e] at h
  exact MWCall.noConfusion h

/-- C5 (amended): the mannwhitneyu call of test_mannwhitney fails with an
argument-count mismatch exactly when the number of distinct groups is not 2
and not 3; with two groups the routine is entered normally, and with three
groups the binding also succeeds, the third group landing in the
use_continuity parameter. -/
theorem mannwhitney_argument_binding {α G : Type*} [LinearOrder G] (data : List α)
    (target : α → Option ℚ) (factor : α → Option G) :
    ((groupKeys data factor).length ≠ 2 → (groupKeys data factor).length ≠ 3 →
      test_mannwhitney data target factor = MWCall.argCountMismatch) ∧
    ((groupKeys data factor).length = 2 →
      ∃ x y, test_mannwhitney data target factor = MWCall.call x y none) ∧
    ((groupKeys data factor).length = 3 →
      ∃ x y u, test_mannwhitney data target factor = MWCall.call x y (some u)) := by
  have hlen : (groupedLists data factor target).length = (groupKeys data factor).length :=
    List.length_map _ _
  rcases hg : groupedLists data factor target with - | ⟨x, - | ⟨y, - | ⟨u, - | ⟨v, rest⟩⟩⟩⟩ <;>
    rw [hg] at hlen <;>
    simp only [List.length_cons, List.length_nil] at hlen <;>
    refine ⟨fun h2 h3 => ?_, fun h2 => ?_, fun h3 => ?_⟩ <;>
      simp only [test_mannwhitney, hg, mannwhitneyuBind] <;>
      first
        | rfl
        | exact ⟨_, _, rfl⟩
        | exact ⟨_, _, _, rfl⟩
        | (exfalso; omega)

/-- Witness for the amended C5: a single-group table makes the call fail with
an argument-count mismatch. -/
theorem mannwhitney_argument_binding_witness :
    (groupKeys [((some 0 : Option ℕ), (some 1 : Option ℚ))] Prod.fst).length = 1 ∧
    test_mannwhitney [((some 0 : Option ℕ), (some 1 : Option ℚ))] Prod.snd Prod.fst =
      MWCall.argCountMismatch :=
  ⟨rfl, (mannwhitney_argument_binding _ Prod.snd Prod.fst).1 (by decide) (by decide)⟩
/-- Rounding is monotone. -/
lemma round_le_round {α : Type*} [LinearOrderedField α] [FloorRing α] {x y : α}
    (h : x ≤ y) : round x ≤ round y := by
  rw [round_eq, round_eq]
  exact Int.floor_le_floor (by linarith)

/-- Rounding to 4 decimals keeps a p-value inside the unit interval. -/
lemma round4_mem_unit {p : ℚ} (h0 : 0 ≤ p) (h1 : p ≤ 1) :
    0 ≤ round4 p ∧ round4 p ≤ 1 := by
  have hl : (0 : ℤ) ≤ round (p * 10000) := by
    have := round_le_round (by linarith : (0 : ℚ) ≤ p * 10000)
    simpa using this
  have hu : round (p * 10000) ≤ 10000 := by
    have := round_le_round (by linarith : p * 10000 ≤ (10000 : ℚ))
    calc round (p * 10000) ≤ round (10000 : ℚ) := this
      _ = 10000 := by
          rw [show ((10000 : ℚ)) = ((10000 : ℤ) : ℚ) by norm_num, round_intCast]
  constructor
  · rw [round4]
    positivity
  · rw [round4]
    rw [div_le_one (by norm_num)]
    exact_mod_cast hu

/-- C6: on success, check_normality emits one row per examined column in input
order; each row carries the column name, the Shapiro-Wilk p-value of the
column after dropping missing values rounded to 4 decimals, and the label
recording Нормальное exactly when that p-value reaches alpha; when the
Shapiro-Wilk p-values lie in the unit interval, so do all reported
p-values. -/
theorem checkNormality_ok_shape (S : List (Option ℚ) → ℚ)
    (df : String → List (Option ℚ)) (alpha : ℚ) :
    ∀ (columns : List String) (rows : List NormRow),
      check_normality S df columns alpha = .ok rows →
      rows.length = columns.length ∧
      (∀ i (hr : i < rows.length) (hc : i < columns.length),
        (rows.get ⟨i, hr⟩).column = columns.get ⟨i, hc⟩ ∧
        ((rows.get ⟨i, hr⟩).distribution = "Нормальное" ↔
          alpha ≤ S (dropna (df (columns.get ⟨i, hc⟩)))) ∧
        (rows.get ⟨i, hr⟩).p_value = round4 (S (dropna (df (columns.get ⟨i, hc⟩))))) ∧
      ((∀ xs, 0 ≤ S xs ∧ S xs ≤ 1) →
        ∀ row ∈ rows, 0 ≤ row.p_value ∧ row.p_value ≤ 1)
  | [], rows, h => by
    simp only [check_normality, checkNormalityRows, Except.ok.injEq] at h
    subst h
    refine ⟨rfl, fun i hr hc => absurd hr (by simp), fun _ row hrow => absurd hrow (by simp)⟩
  | c :: cs, rows, h => by
    rw [check_normality, checkNormalityRows] at h
    rcases hp : shapiroResult S (dropna (df c)) with e | p <;> rw [hp] at h
    · exact absurd h (by simp)
    rcases hrec : checkNormalityRows S df alpha cs with e | rest <;> rw [hrec] at h
    · exact absurd h (by simp)
    obtain ⟨hlen, hidx, hbnd⟩ := checkNormality_ok_shape S df alpha cs rest hrec
    simp only [Except.ok.injEq] at h
    subst h
    have hpval : p = S (dropna (df c)) := by
      rw [shapiroResult] at hp
      split at hp
      · exact absurd hp (by simp)
      · simpa using hp.symm
    refine ⟨by simp [hlen], ?_, ?_⟩
    · intro i hr hc
      cases i with
      | zero =>
        subst hpval
        simp only [List.get]
        refine ⟨by simp, ?_, by simp⟩
        split_ifs with hcond
        · simp [hcond]
        · simp only [hcond, iff_false]
          decide
      | succ j =>
        simp only [List.length_cons, Nat.succ_lt_succ_iff] at hr hc
        exact hidx j hr hc
    · intro hS row hrow
      rcases List.mem_cons.mp hrow with hhead | htail
      · subst hhead
        subst hpval
        exact round4_mem_unit (hS _).1 (hS _).2
      · exact hbnd hS row htail

/-- C9: a column with fewer than 3 non-missing values among the examined
columns makes check_normality fail, so no result table is produced at all. -/
theorem checkNormality_degenerate_fails (S : List (Option ℚ) → ℚ)
    (df : String → List (Option ℚ)) (alpha : ℚ) :
    ∀ columns : List String, (∃ c ∈ columns, (dropna (df c)).length < 3) →
      check_normality S df columns alpha = .error ()
  | [], h => absurd h (by simp)
  | c :: cs, h => by
    rw [check_normality, checkNormalityRows]
    obtain ⟨c0, hc0, hlen⟩ := h
    rcases List.mem_cons.mp hc0 with rfl | htail
    · rw [shapiroResult, if_pos hlen]
    · rcases hp : shapiroResult S (dropna (df c)) with e | p
      · rfl
      · have hrec := checkNormality_degenerate_fails S df alpha cs ⟨c0, htail, hlen⟩
        rw [check_normality] at hrec
        rw [hrec]

/-- The single row that check_normality produces in the C6 witness
scenario. -/
def normRowHalf : NormRow := { column := "x", p_value := 1/2, distribution := "Нормальное" }

/-- Witness for C6: one three-observation column with constant Shapiro-Wilk
p-value one half produces the single expected row, with a p-value inside the
unit interval. -/
theorem checkNormality_ok_shape_witness :
    check_normality (fun _ => (1/2 : ℚ)) (fun _ => [some 1, some 2, some 3]) ["x"] (1/20) =
      .ok [normRowHalf] ∧
    (0 ≤ normRowHalf.p_value ∧ normRowHalf.p_value ≤ 1) := by
  have hok : check_normality (fun _ => (1/2 : ℚ)) (fun _ => [some 1, some 2, some 3])
      ["x"] (1/20) = .ok [normRowHalf] := by
    norm_num [check_normality, checkNormalityRows, shapiroResult, dropna, round4,
      round_eq, normRowHalf]
  exact ⟨hok, (checkNormality_ok_shape _ _ _ ["x"] _ hok).2.2
    (fun xs => by norm_num) _ (by simp)⟩

/-- Witness for C9: a column with only two non-missing observations makes
check_normality fail with an error and no result table. -/
theorem checkNormality_degenerate_fails_witness :
    check_normality (fun _ => (1/2 : ℚ)) (fun _ => [some 1, some 2]) ["x"] (1/20) =
      .error () :=
  checkNormality_degenerate_fails _ _ _ ["x"] ⟨"x", by simp, by simp [dropna]⟩
lemma ssBetween_nonneg {G : Type*} [LinearOrder G] (d : List (G × ℚ)) :
    0 ≤ ssBetween d :=
  List.sum_nonneg (fun x hx => by
    obtain ⟨g, -, rfl⟩ := List.mem_map.mp hx
    positivity)

lemma ssWithin_nonneg {G : Type*} [LinearOrder G] (d : List (G × ℚ)) :
    0 ≤ ssWithin d :=
  List.sum_nonneg (fun x hx => by
    obtain ⟨g, -, rfl⟩ := List.mem_map.mp hx
    exact List.sum_nonneg (fun y hy => by
      obtain ⟨v, -, rfl⟩ := List.mem_map.mp hy
      positivity))

/-- C7: get_eta_correlation equals the square root of the ratio of the
between-group sum of squares to the total sum of squares whenever the total
is nonzero, equals 0 when the total is zero (in particular on input that is
empty after dropping missing values), and always lies in the unit
interval. -/
theorem eta_correlation_spec {G : Type*} [LinearOrder G]
    (groups : List (Option G)) (values : List (Option ℚ)) :
    (ssBetween (cleanPairs (groups.zip values)) +
        ssWithin (cleanPairs (groups.zip values)) ≠ 0 →
      get_eta_correlation groups values =
        Real.sqrt ((ssBetween (cleanPairs (groups.zip values)) /
          (ssBetween (cleanPairs (groups.zip values)) +
           ssWithin (cleanPairs (groups.zip values))) : ℚ) : ℝ)) ∧
    (ssBetween (cleanPairs (groups.zip values)) +
        ssWithin (cleanPairs (groups.zip values)) = 0 →
      get_eta_correlation groups values = 0) ∧
    (cleanPairs (groups.zip values) = [] → get_eta_correlation groups values = 0) ∧
    0 ≤ get_eta_correlation groups values ∧ get_eta_correlation groups values ≤ 1 := by
  have hB := ssBetween_nonneg (cleanPairs (groups.zip values))
  have hW := ssWithin_nonneg (cleanPairs (groups.zip values))
  have hzero : ssBetween (cleanPairs (groups.zip values)) +
      ssWithin (cleanPairs (groups.zip values)) = 0 →
      get_eta_correlation groups values = 0 := by
    intro h
    rw [get_eta_correlation]
    simp only [h, lt_irrefl, if_false]
  refine ⟨?_, hzero, ?_, ?_, ?_⟩
  · intro h
    rw [get_eta_correlation, if_pos (lt_of_le_of_ne (by linarith) (Ne.symm h))]
  · intro h
    apply hzero
    simp [ssBetween, ssWithin, etaKeys, h, List.insertionSort]
  · rw [get_eta_correlation]
    split_ifs
    · exact Real.sqrt_nonneg _
    · exact le_refl 0
  · rw [get_eta_correlation]
    split_ifs with hpos
    · rw [Real.sqrt_le_one]
      rw [show ((1 : ℝ)) = ((1 : ℚ) : ℝ) by norm_num, Rat.cast_le]
      rw [div_le_one hpos]
      linarith
    · norm_num

/-- Witness for C7: two groups with values 1,3 and 5,7 give total sum of
squares 20, between-group part 16, and eta sqrt(4/5). -/
theorem eta_correlation_spec_witness :
    get_eta_correlation [some 0, some 0, some 1, some 1]
      [some (1 : ℚ), some 3, some 5, some 7] = Real.sqrt ((4/5 : ℚ) : ℝ) ∧
    0 ≤ get_eta_correlation [some 0, some 0, some 1, some 1]
      [some (1 : ℚ), some 3, some 5, some 7] := by
  have hB : ssBetween (cleanPairs (([some 0, some 0, some 1, some 1] :
      List (Option ℕ)).zip [some (1 : ℚ), some 3, some 5, some 7])) = 16 := by
    norm_num [ssBetween, etaKeys, etaVals, mean, cleanPairs, List.dedup,
      List.insertionSort, List.orderedInsert, List.zip, List.zipWith, List.filter_cons,
      List.filterMap_cons, List.filterMap_nil, Option.bind, Function.comp]
  have hW : ssWithin (cleanPairs (([some 0, some 0, some 1, some 1] :
      List (Option ℕ)).zip [some (1 : ℚ), some 3, some 5, some 7])) = 4 := by
    norm_num [ssWithin, etaKeys, etaVals, mean, cleanPairs, List.dedup,
      List.insertionSort, List.orderedInsert, List.zip, List.zipWith, List.filter_cons,
      List.filterMap_cons, List.filterMap_nil, Option.bind, Function.comp]
  have h1 := (eta_correlation_spec [some 0, some 0, some 1, some 1]
    [some (1 : ℚ), some 3, some 5, some 7]).1 (by rw [hB, hW]; norm_num)
  rw [hB, hW] at h1
  constructor
  · rw [h1]
    congr 1
    norm_num
  · exact (eta_correlation_spec [some 0, some 0, some 1, some 1]
      [some (1 : ℚ), some 3, some 5, some 7]).2.2.2.1

lemma sum_map_add_const (vs : List ℚ) (c : ℚ) :
    (vs.map (fun v => v + c)).sum = vs.sum + vs.length * c := by
  induction vs with
  | nil => simp
  | cons v t ih => simp [ih]; ring

lemma mean_map_add_const {vs : List ℚ} (c : ℚ) (h : vs ≠ []) :
    mean (vs.map (fun v => v + c)) = mean vs + c := by
  have hlen : (vs.length : ℚ) ≠ 0 := by
    simpa using fun h0 => h (List.length_eq_zero.mp h0)
  rw [mean, mean, List.length_map, sum_map_add_const]
  field_simp
  ring

lemma cleanPairs_shift {G : Type*} (l : List (Option G × Option ℚ)) (c : ℚ) :
    cleanPairs (l.map (Prod.map id (Option.map (· + c)))) =
      (cleanPairs l).map (fun q => (q.1, q.2 + c)) := by
  induction l with
  | nil => rfl
  | cons p t ih =>
    obtain ⟨g, v⟩ := p
    cases g <;> cases v <;>
      simp [cleanPairs, List.filterMap_cons, ih] <;>
      simpa [cleanPairs] using ih

lemma etaKeys_shift {G : Type*} [LinearOrder G] (d : List (G × ℚ)) (c : ℚ) :
    etaKeys (d.map (fun q => (q.1, q.2 + c))) = etaKeys d := by
  rw [etaKeys, etaKeys, List.map_map]
  rfl

lemma etaVals_shift {G : Type*} [LinearOrder G] (d : List (G × ℚ)) (g : G) (c : ℚ) :
    etaVals (d.map (fun q => (q.1, q.2 + c))) g = (etaVals d g).map (fun v => v + c) := by
  rw [etaVals, etaVals, List.filter_map, List.map_map, List.map_map]
  rfl

lemma etaVals_ne_nil {G : Type*} [LinearOrder G] {d : List (G × ℚ)} {g : G}
    (hg : g ∈ etaKeys d) : etaVals d g ≠ [] := by
  rw [etaKeys, List.mem_insertionSort, List.mem_dedup, List.mem_map] at hg
  obtain ⟨p, hp, hpg⟩ := hg
  have : p ∈ d.filter (fun p => p.1 = g) :=
    List.mem_filter.mpr ⟨hp, by simp [hpg]⟩
  simp only [etaVals, ne_eq, List.map_eq_nil_iff]
  exact List.ne_nil_of_mem this

lemma snd_map_shift {G : Type*} (d : List (G × ℚ)) (c : ℚ) :
    (d.map (fun q => (q.1, q.2 + c))).map Prod.snd =
      (d.map Prod.snd).map (fun v => v + c) := by
  rw [List.map_map, List.map_map]
  rfl

lemma ssBetween_shift {G : Type*} [LinearOrder G] (d : List (G × ℚ)) (c : ℚ) :
    ssBetween (d.map (fun q => (q.1, q.2 + c))) = ssBetween d := by
  rcases eq_or_ne d [] with rfl | hd
  · rfl
  · rw [ssBetween, ssBetween, etaKeys_shift]
    congr 1
    apply List.map_congr_left
    intro g hg
    have hvals := etaVals_ne_nil hg
    have hsnd : d.map Prod.snd ≠ [] := by
      simpa [List.map_eq_nil_iff] using hd
    rw [etaVals_shift, snd_map_shift, List.length_map,
      mean_map_add_const c hvals, mean_map_add_const c hsnd]
    ring

lemma ssWithin_shift {G : Type*} [LinearOrder G] (d : List (G × ℚ)) (c : ℚ) :
    ssWithin (d.map (fun q => (q.1, q.2 + c))) = ssWithin d := by
  rw [ssWithin, ssWithin, etaKeys_shift]
  congr 1
  apply List.map_congr_left
  intro g hg
  have hvals := etaVals_ne_nil hg
  rw [etaVals_shift, mean_map_add_const c hvals, List.map_map]
  congr 1
  apply List.map_congr_left
  intro v hv
  simp only [Function.comp]
  ring

/-- C8: get_eta_correlation is invariant under adding a constant to every
quantitative value. -/
theorem eta_correlation_shift_invariant {G : Type*} [LinearOrder G]
    (groups : List (Option G)) (values : List (Option ℚ)) (c : ℚ) :
    get_eta_correlation groups (values.map (Option.map (· + c))) =
      get_eta_correlation groups values := by
  rw [get_eta_correlation, get_eta_correlation]
  rw [List.zip_map_right, cleanPairs_shift, ssBetween_shift, ssWithin_shift]

/-- Witness for C8: shifting the values of the C7 witness table by 100 leaves
eta unchanged. -/
theorem eta_correlation_shift_invariant_witness :
    get_eta_correlation [some 0, some 0, some 1, some 1]
      (([some (1 : ℚ), some 3, some 5, some 7]).map (Option.map (· + 100))) =
      get_eta_correlation [some 0, some 0, some 1, some 1]
        [some (1 : ℚ), some 3, some 5, some 7] :=
  eta_correlation_shift_invariant [some 0, some 0, some 1, some 1]
    [some (1 : ℚ), some 3, some 5, some 7] 100
lemma abs_sum_div_sqrt_le_one {β : Type*} (l : List β) (f g : β → ℝ) :
    |(l.map (fun x => f x * g x)).sum /
      Real.sqrt ((l.map (fun x => f x ^ 2)).sum * (l.map (fun x => g x ^ 2)).sum)| ≤ 1 := by
  have hCS : ((l.map (fun x => f x * g x)).sum) ^ 2 ≤
      ((l.map (fun x => f x ^ 2)).sum) * ((l.map (fun x => g x ^ 2)).sum) := by
    rw [← Fin.sum_univ_get' l (fun x => f x * g x), ← Fin.sum_univ_get' l (fun x => f x ^ 2),
      ← Fin.sum_univ_get' l (fun x => g x ^ 2)]
    exact Finset.sum_mul_sq_le_sq_mul_sq Finset.univ (fun i => f (l.get i))
      (fun i => g (l.get i))
  rcases eq_or_lt_of_le (Real.sqrt_nonneg
      (((l.map (fun x => f x ^ 2)).sum) * ((l.map (fun x => g x ^ 2)).sum))) with hz | hpos
  · rw [← hz, div_zero]
    norm_num
  · rw [abs_div, abs_of_pos hpos, div_le_one hpos]
    calc |(l.map (fun x => f x * g x)).sum|
        = Real.sqrt (((l.map (fun x => f x * g x)).sum) ^ 2) :=
          (Real.sqrt_sq_eq_abs _).symm
      _ ≤ Real.sqrt (((l.map (fun x => f x ^ 2)).sum) * ((l.map (fun x => g x ^ 2)).sum)) :=
          Real.sqrt_le_sqrt hCS

lemma abs_corrCoeff_some {ps : List (ℝ × ℝ)} {x : ℝ} (h : corrCoeff ps = some x) :
    |x| ≤ 1 := by
  simp only [corrCoeff] at h
  split_ifs at h
  rw [← Option.some_inj.mp h]
  exact abs_sum_div_sqrt_le_one ps
    (fun p => p.1 - (ps.map Prod.fst).sum / ps.length)
    (fun p => p.2 - (ps.map Prod.snd).sum / ps.length)

lemma abs_pearsonR_some {xs ys : List (Option ℚ)} {x : ℝ}
    (h : pearsonR xs ys = some x) : |x| ≤ 1 := by
  rw [pearsonR] at h
  rcases hp : pairedColumns xs ys with - | ps <;> rw [hp] at h
  · exact absurd h (by simp)
  · exact abs_corrCoeff_some h

lemma abs_spearmanR_some {xs ys : List (Option ℚ)} {x : ℝ}
    (h : spearmanR xs ys = some x) : |x| ≤ 1 := by
  rw [spearmanR] at h
  rcases hp : pairedColumns xs ys with - | ps <;> rw [hp] at h
  · exact absurd h (by simp)
  · exact abs_corrCoeff_some h

lemma abs_round4R_le_one {x : ℝ} (h : |x| ≤ 1) : |round4R x| ≤ 1 := by
  obtain ⟨hlo, hhi⟩ := abs_le.mp h
  have hu : round (x * 10000) ≤ 10000 := by
    calc round (x * 10000) ≤ round ((10000 : ℝ)) := round_le_round (by linarith)
      _ = 10000 := by
          rw [show ((10000 : ℝ)) = ((10000 : ℤ) : ℝ) by norm_num, round_intCast]
  have hl : (-10000 : ℤ) ≤ round (x * 10000) := by
    calc (-10000 : ℤ) = round ((-10000 : ℝ)) := by
          rw [show ((-10000 : ℝ)) = (((-10000 : ℤ)) : ℝ) by norm_num, round_intCast]
      _ ≤ round (x * 10000) := round_le_round (by linarith)
  rw [round4R, abs_le]
  constructor
  · rw [le_div_iff₀ (by norm_num : (0:ℝ) < 10000)]
    exact_mod_cast hl
  · rw [div_le_one (by norm_num : (0:ℝ) < 10000)]
    exact_mod_cast hu

lemma abs_map_round4R {o : Option ℝ} {x : ℝ}
    (ho : ∀ y, o = some y → |y| ≤ 1) (hx : o.map round4R = some x) : |x| ≤ 1 := by
  rcases o with - | y
  · exact absurd hx (by simp)
  · simp only [Option.map_some'] at hx
    rw [← Option.some_inj.mp hx]
    exact abs_round4R_le_one (ho y rfl)

/-- C4 (amended): on success, get_quant_p_values labels a factor "Pearson"
exactly when both the factor column and the target column pass the _is_normal
check (the Shapiro-Wilk p-value of the raw column reaching alpha = 0.05),
otherwise "Spearman"; and whenever the reported correlation coefficient is an
actual number (the underlying routines yield NaN for a constant column or a
column containing missing values), it lies in the interval from -1 to 1. -/
theorem quantPValues_ok_shape (S : List (Option ℚ) → ℚ)
    (pP sP : List (Option ℚ) → List (Option ℚ) → ℚ)
    (df : String → List (Option ℚ)) (target : String) :
    ∀ (factors : List String) (rows : List QuantRow),
      get_quant_p_values S pP sP df target factors = .ok rows →
      rows.length = factors.length ∧
      ∀ i (hr : i < rows.length) (hc : i < factors.length),
        (rows.get ⟨i, hr⟩).column = factors.get ⟨i, hc⟩ ∧
        ((rows.get ⟨i, hr⟩).method = "Pearson" ↔
          (isNormal S (df (factors.get ⟨i, hc⟩)) = .ok true ∧
           isNormal S (df target) = .ok true)) ∧
        ∀ x, (rows.get ⟨i, hr⟩).correlation = some x → |x| ≤ 1
  | [], rows, h => by
    simp only [get_quant_p_values, quantRows, Except.ok.injEq] at h
    subst h
    exact ⟨rfl, fun i hr hc => absurd hr (by simp)⟩
  | f :: fs, rows, h => by
    rw [get_quant_p_values, quantRows] at h
    rcases hrow : quantRow S pP sP df target f with e | row <;> rw [hrow] at h
    · exact absurd h (by simp)
    rcases hrec : quantRows S pP sP df target fs with e | rest <;> rw [hrec] at h
    · exact absurd h (by simp)
    obtain ⟨hlen, hidx⟩ := quantPValues_ok_shape S pP sP df target fs rest
      (by rw [get_quant_p_values]; exact hrec)
    simp only [Except.ok.injEq] at h
    subst h
    refine ⟨by simp [hlen], ?_⟩
    intro i hr hc
    cases i with
    | succ j =>
      simp only [List.length_cons, Nat.succ_lt_succ_iff] at hr hc
      exact hidx j hr hc
    | zero =>
      rw [quantRow] at hrow
      rcases hfn : isNormal S (df f) with e | fn <;> rw [hfn] at hrow
      · exact absurd hrow (by simp)
      cases fn with
      | false =>
        simp only [Bool.false_eq_true, if_false, Except.ok.injEq] at hrow
        subst hrow
        simp only [List.get]
        refine ⟨by simp, ?_, ?_⟩
        · constructor
          · intro hd
            exact absurd hd (by decide)
          · rintro ⟨h1, -⟩
            exact absurd (hfn.symm.trans h1) (by simp)
        · exact fun x hx => abs_map_round4R (fun y hy => abs_spearmanR_some hy) hx
      | true =>
        simp only [if_true] at hrow
        rcases htn : isNormal S (df target) with e | tn <;> rw [htn] at hrow
        · exact absurd hrow (by simp)
        simp only [Except.ok.injEq] at hrow
        subst hrow
        cases tn with
        | false =>
          simp only [List.get]
          refine ⟨by simp, ?_, ?_⟩
          · constructor
            · intro hd
              exact absurd hd (by decide)
            · rintro ⟨-, h2⟩
              exact absurd h2 (by simp)
          · exact fun x hx => abs_map_round4R (fun y hy => abs_spearmanR_some hy) hx
        | true =>
          simp only [List.get]
          refine ⟨by simp, ⟨fun _ => ⟨hfn, trivial⟩, fun _ => by simp⟩, ?_⟩
          exact fun x hx => abs_map_round4R (fun y hy => abs_pearsonR_some hy) hx

/-- Output row of the C4 counterexample scenario: factor and target columns
both constantly 1, so pearsonr receives a constant input and reports NaN. -/
def quantNaNRow : QuantRow :=
  { column := "f", p_value := round4 (1/100), correlation := none,
    method := "Pearson", conclusion := "Есть статистически значимая разница." }

/-- C4 (counterexample): on a table whose factor and target columns are
constant, get_quant_p_values succeeds but the reported correlation
coefficient is NaN (none), which is not a real number in the interval from
-1 to 1: the original claim fails at this input. -/
theorem quantPValues_nan_coefficient :
    get_quant_p_values (fun _ => (1/2 : ℚ)) (fun _ _ => (1/100 : ℚ))
      (fun _ _ => (1/2 : ℚ)) (fun _ => [some 1, some 1, some 1]) "t" ["f"] =
      .ok [quantNaNRow] ∧
    quantNaNRow.correlation = none ∧ quantNaNRow.method = "Pearson" := by
  have hp : pearsonR [some (1 : ℚ), some 1, some 1] [some (1 : ℚ), some 1, some 1] =
      none := by
    rw [pearsonR]
    have hpc : pairedColumns [some (1 : ℚ), some 1, some 1]
        [some (1 : ℚ), some 1, some 1] = some [(1, 1), (1, 1), (1, 1)] := by
      simp [pairedColumns]
    rw [hpc]
    norm_num [corrCoeff]
  refine ⟨?_, rfl, rfl⟩
  rw [get_quant_p_values, quantRows, quantRow]
  have hd : (decide ((1 : ℚ)/20 ≤ 1/2)) = true := decide_eq_true (by norm_num)
  norm_num [isNormal, shapiroResult, Except.map, hd, quantRows, quantNaNRow, hp]

/-- Output row of the C4 witness scenario: factor and target both hold the
three present values 1, 2, 3, the abstract Shapiro-Wilk p-value is one half,
the abstract Pearson p-value is one hundredth. -/
noncomputable def quantWitnessRow : QuantRow :=
  { column := "f", p_value := round4 (1/100),
    correlation := (pearsonR [some 1, some 2, some 3]
      [some 1, some 2, some 3]).map round4R,
    method := "Pearson", conclusion := "Есть статистически значимая разница." }

/-- Witness for C4: with normal factor and target (constant p-value one half)
and strictly increasing columns, the single row is labelled Pearson, its
coefficient is the number round4R 1, and that number lies in the unit
interval around zero. -/
theorem quantPValues_ok_shape_witness :
    get_quant_p_values (fun _ => (1/2 : ℚ)) (fun _ _ => (1/100 : ℚ))
      (fun _ _ => (1/2 : ℚ)) (fun _ => [some 1, some 2, some 3]) "t" ["f"] =
      .ok [quantWitnessRow] ∧
    quantWitnessRow.column = "f" ∧ |round4R 1| ≤ 1 := by
  have hok : get_quant_p_values (fun _ => (1/2 : ℚ)) (fun _ _ => (1/100 : ℚ))
      (fun _ _ => (1/2 : ℚ)) (fun _ => [some 1, some 2, some 3]) "t" ["f"] =
      .ok [quantWitnessRow] := by
    rw [get_quant_p_values, quantRows, quantRow]
    have hd : (decide ((1 : ℚ)/20 ≤ 1/2)) = true := decide_eq_true (by norm_num)
    norm_num [isNormal, shapiroResult, Except.map, hd, quantRows, quantWitnessRow]
  have hp1 : pearsonR [some (1 : ℚ), some 2, some 3] [some (1 : ℚ), some 2, some 3] =
      some 1 := by
    rw [pearsonR]
    have hpc : pairedColumns [some (1 : ℚ), some 2, some 3]
        [some (1 : ℚ), some 2, some 3] = some [(1, 1), (2, 2), (3, 3)] := by
      simp [pairedColumns]
    rw [hpc]
    have h4 : Real.sqrt 4 = 2 := by
      rw [show (4 : ℝ) = 2 ^ 2 by norm_num]
      exact Real.sqrt_sq (by norm_num)
    norm_num [corrCoeff, h4]
  have hcor : quantWitnessRow.correlation = some (round4R 1) := by
    rw [quantWitnessRow]
    rw [show pearsonR [some (1 : ℚ), some 2, some 3] [some (1 : ℚ), some 2, some 3] =
      some 1 from hp1]
    rfl
  have happ := (quantPValues_ok_shape (fun _ => (1/2 : ℚ)) (fun _ _ => (1/100 : ℚ))
    (fun _ _ => (1/2 : ℚ)) (fun _ => [some 1, some 2, some 3]) "t" ["f"]
    [quantWitnessRow] hok).2 0 (by simp) (by simp)
  exact ⟨hok, happ.1, happ.2.2 (round4R 1) hcor⟩
